import Mathlib

/-!
Verification of the URL parsing / serialization engine exposed by the
ada-url Rust binding crate.

The crate under verification is a thin Rust wrapper (src/lib.rs,
src/ffi.rs, src/idna.rs, src/url_search_params.rs) around a C++ URL
engine (deps/ada.cpp) that lives in the repository but outside src/.
Wherever a property is decided by the Rust wrapper itself we embed the
Rust code directly.  Wherever the property is decided by the engine we
model the engine from the specification (those definitions carry a
doc comment starting with the words Modelled from the spec).
-/

namespace AdaUrl

/-! ## Generic list helpers -/

theorem takeWhile_append_of_all {α : Type} (p : α → Bool) (xs ys : List α)
    (h : ∀ x ∈ xs, p x = true) :
    (xs ++ ys).takeWhile p = xs ++ ys.takeWhile p := by
  induction xs with
  | nil => simp
  | cons a t ih =>
    have ha : p a = true := h a (by simp)
    simp only [List.cons_append, List.takeWhile_cons_of_pos ha, List.cons.injEq, true_and]
    exact ih (fun x hx => h x (by simp [hx]))

theorem dropWhile_append_of_all {α : Type} (p : α → Bool) (xs ys : List α)
    (h : ∀ x ∈ xs, p x = true) :
    (xs ++ ys).dropWhile p = ys.dropWhile p := by
  induction xs with
  | nil => simp
  | cons a t ih =>
    have ha : p a = true := h a (by simp)
    simp only [List.cons_append, List.dropWhile_cons_of_pos ha]
    exact ih (fun x hx => h x (by simp [hx]))

theorem takeWhile_of_all {α : Type} (p : α → Bool) (xs : List α)
    (h : ∀ x ∈ xs, p x = true) : xs.takeWhile p = xs := by
  have := takeWhile_append_of_all p xs [] h
  simpa using this

theorem dropWhile_of_all {α : Type} (p : α → Bool) (xs : List α)
    (h : ∀ x ∈ xs, p x = true) : xs.dropWhile p = [] := by
  have := dropWhile_append_of_all p xs [] h
  simpa using this

theorem mem_takeWhile_part {α : Type} (p : α → Bool) (xs : List α) :
    ∀ x ∈ xs.takeWhile p, p x = true ∧ x ∈ xs := by
  induction xs with
  | nil => intro x hx; simp at hx
  | cons a t ih =>
    intro x hx
    by_cases ha : p a = true
    · rw [List.takeWhile_cons_of_pos ha] at hx
      rcases List.mem_cons.mp hx with h1 | h2
      · subst h1; exact ⟨ha, by simp⟩
      · rcases ih x h2 with ⟨h3, h4⟩
        exact ⟨h3, by simp [h4]⟩
    · rw [List.takeWhile_cons_of_neg ha] at hx
      simp at hx

theorem take_length_append_cons {α : Type} (xs : List α) (y : α) (rest : List α) :
    (xs ++ y :: rest).take (xs.length + 1) = xs ++ [y] := by
  induction xs with
  | nil => simp
  | cons a t ih => simp [List.take_succ_cons, ih]

theorem getLast?_append_singleton {α : Type} (xs : List α) (y : α) :
    (xs ++ [y]).getLast? = some y := by
  induction xs with
  | nil => rfl
  | cons a t ih =>
    rw [List.cons_append, List.getLast?_cons]
    simp only [ih]
    cases t <;> simp_all [List.getLast?_cons]

/-- Insert an element at a given position (append when out of range). -/
def insertAt {α : Type} : Nat → α → List α → List α
  | 0, a, l => a :: l
  | _ + 1, a, [] => [a]
  | n + 1, a, x :: l => x :: insertAt n a l

/-- Split a character list at the LAST occurrence of a separator,
returning the parts before and after it; none when the separator
does not occur. -/
def splitLastSep (sep : Char) : List Char → Option (List Char × List Char)
  | [] => none
  | c :: t =>
    match splitLastSep sep t with
    | some x => some (c :: x.1, x.2)
    | none => if c = sep then some ([], t) else none

theorem splitLastSep_eq_none (sep : Char) (l : List Char) (h : sep ∉ l) :
    splitLastSep sep l = none := by
  induction l with
  | nil => rfl
  | cons c t ih =>
    have hc : c ≠ sep := by intro hc; exact h (by simp [hc])
    have ht : sep ∉ t := fun hm => h (by simp [hm])
    simp [splitLastSep, ih ht, hc]

theorem splitLastSep_append (sep : Char) (a b : List Char) (h : sep ∉ b) :
    splitLastSep sep (a ++ sep :: b) = some (a, b) := by
  induction a with
  | nil => simp [splitLastSep, splitLastSep_eq_none sep b h]
  | cons c t ih => simp [splitLastSep, ih]

theorem splitLastSep_ne_none_of_mem (sep : Char) (l : List Char) (h : sep ∈ l) :
    splitLastSep sep l ≠ none := by
  induction l with
  | nil => simp at h
  | cons c t ih =>
    rcases List.mem_cons.mp h with h1 | h1
    · subst h1
      cases hy : splitLastSep sep t with
      | some z => simp [splitLastSep, hy]
      | none => simp [splitLastSep, hy]
    · have := ih h1
      cases hy : splitLastSep sep t with
      | some z => simp [splitLastSep, hy]
      | none => exact absurd hy this

theorem splitLastSep_mem (sep : Char) (l : List Char) (a b : List Char)
    (h : splitLastSep sep l = some (a, b)) :
    (∀ c ∈ a, c ∈ l) ∧ (∀ c ∈ b, c ∈ l) ∧ sep ∉ b := by
  induction l generalizing a b with
  | nil => simp [splitLastSep] at h
  | cons c t ih =>
    simp only [splitLastSep] at h
    cases hsplit : splitLastSep sep t with
    | some x =>
      rw [hsplit] at h
      simp only [Option.some.injEq, Prod.mk.injEq] at h
      rcases h with ⟨h1, h2⟩
      rcases ih x.1 x.2 (by rw [hsplit]) with ⟨ha, hb, hsep⟩
      subst h1; subst h2
      refine ⟨?_, ?_, hsep⟩
      · intro d hd
        rcases List.mem_cons.mp hd with h3 | h3
        · simp [h3]
        · simp [ha d h3]
      · intro d hd; simp [hb d hd]
    | none =>
      rw [hsplit] at h
      by_cases hc : c = sep
      · simp only [hc, if_pos rfl, Option.some.injEq, Prod.mk.injEq] at h
        have hnb : sep ∉ t := by
          intro hm
          exact splitLastSep_ne_none_of_mem sep t hm hsplit
        obtain ⟨rfl, rfl⟩ := h
        exact ⟨by intro d hd; simp at hd, by intro d hd; simp [hd], hnb⟩
      · simp [hc] at h

/-! ## Decimal digit printing and parsing -/

def digitChar : Nat → Char
  | 0 => '0' | 1 => '1' | 2 => '2' | 3 => '3' | 4 => '4'
  | 5 => '5' | 6 => '6' | 7 => '7' | 8 => '8' | 9 => '9'
  | _ + 10 => '0'

/-- Canonical decimal representation of a natural number. -/
def natToChars (n : Nat) : List Char :=
  if _h : n < 10 then [digitChar n]
  else natToChars (n / 10) ++ [digitChar (n % 10)]
  decreasing_by exact Nat.div_lt_self (by omega) (by omega)

/-- Parse a digit string into a natural number (as the engine does). -/
def charsToNat (l : List Char) : Nat :=
  l.foldl (fun a c => a * 10 + (c.toNat - 48)) 0

theorem digitChar_toNat (d : Nat) (h : d < 10) : (digitChar d).toNat - 48 = d := by
  match d, h with
  | 0, _ => decide
  | 1, _ => decide
  | 2, _ => decide
  | 3, _ => decide
  | 4, _ => decide
  | 5, _ => decide
  | 6, _ => decide
  | 7, _ => decide
  | 8, _ => decide
  | 9, _ => decide

theorem digitChar_isDigit (d : Nat) : (digitChar d).isDigit = true := by
  match d with
  | 0 => decide
  | 1 => decide
  | 2 => decide
  | 3 => decide
  | 4 => decide
  | 5 => decide
  | 6 => decide
  | 7 => decide
  | 8 => decide
  | 9 => decide
  | _ + 10 => exact (by decide : Char.isDigit '0' = true)

theorem natToChars_foldl (n : Nat) : ∀ a : Nat,
    List.foldl (fun a c => a * 10 + (c.toNat - 48)) a (natToChars n)
      = a * 10 ^ (natToChars n).length + n := by
  induction n using Nat.strong_induction_on with
  | _ n ih =>
    intro a
    rw [natToChars]
    by_cases h : n < 10
    · simp only [dif_pos h, List.foldl_cons, List.foldl_nil, List.length_cons,
        List.length_nil, digitChar_toNat n h]
      ring
    · have hd : n / 10 < n := Nat.div_lt_self (by omega) (by omega)
      simp only [dif_neg h, List.foldl_append, List.foldl_cons, List.foldl_nil,
        List.length_append, List.length_cons, List.length_nil]
      rw [ih (n / 10) hd]
      have hm : (digitChar (n % 10)).toNat - 48 = n % 10 :=
        digitChar_toNat _ (Nat.mod_lt n (by omega))
      rw [hm]
      have heq : (a * 10 ^ (natToChars (n / 10)).length + n / 10) * 10 + n % 10
          = a * (10 ^ (natToChars (n / 10)).length * 10) + (n / 10 * 10 + n % 10) := by
        ring
      have hdm : n / 10 * 10 + n % 10 = n := by omega
      rw [heq, hdm]
      simp [pow_succ]

theorem charsToNat_natToChars (n : Nat) : charsToNat (natToChars n) = n := by
  unfold charsToNat
  rw [natToChars_foldl n 0]
  simp

theorem natToChars_ne_nil (n : Nat) : natToChars n ≠ [] := by
  rw [natToChars]
  by_cases h : n < 10 <;> simp [h]

theorem natToChars_all {P : Char → Bool} (hP : ∀ d, P (digitChar d) = true)
    (n : Nat) : ∀ c ∈ natToChars n, P c = true := by
  induction n using Nat.strong_induction_on with
  | _ n ih =>
    intro c hc
    rw [natToChars] at hc
    by_cases h : n < 10
    · simp only [dif_pos h, List.mem_singleton] at hc
      subst hc; exact hP n
    · simp only [dif_neg h, List.mem_append, List.mem_singleton] at hc
      rcases hc with h1 | h1
      · exact ih (n / 10) (Nat.div_lt_self (by omega) (by omega)) c h1
      · subst h1; exact hP _

/-! ## The URL record and its serializer

Modelled from the spec: the parsing/serialization engine (deps/ada.cpp)
is not under src/; sections 3, 4.3 and 4.5 of the specification describe
the URL record, the state-machine grammar and the serializer, which we
model here for hierarchical (authority-carrying) URLs.  Percent-encoding,
IDNA host normalization, relative path shortening and the bespoke file
scheme rules are not needed by any claim and are not modelled. -/

/-- Characters that terminate the authority section of a URL. -/
def isAuthEnd (c : Char) : Bool := c = '/' || c = '?' || c = '#'

/-- Characters that terminate the path section of a URL. -/
def isPathDelim (c : Char) : Bool := c = '?' || c = '#'

/-- Modelled from the spec: default port table of the special schemes. -/
def defaultPort : List Char → Option Nat
  | ['h', 't', 't', 'p'] => some 80
  | ['h', 't', 't', 'p', 's'] => some 443
  | ['w', 's'] => some 80
  | ['w', 's', 's'] => some 443
  | ['f', 't', 'p'] => some 21
  | _ => none

/-- Modelled from the spec: the URL record of section 3 for URLs with an
authority (scheme is stored without the trailing colon). -/
structure UrlRec where
  scheme : List Char
  username : List Char
  password : List Char
  host : List Char
  port : Option Nat
  path : List Char
  query : Option (List Char)
  fragment : Option (List Char)
deriving DecidableEq, Repr

/-- Serialized userinfo: user[:pass]@ iff username or password nonempty. -/
def userinfoChars (u p : List Char) : List Char :=
  if u = [] ∧ p = [] then []
  else u ++ (if p = [] then [] else ':' :: p) ++ ['@']

def userinfoPart (r : UrlRec) : List Char :=
  userinfoChars r.username r.password

def portPart : Option Nat → List Char
  | none => []
  | some n => ':' :: natToChars n

def queryPart : Option (List Char) → List Char
  | none => []
  | some q => '?' :: q

def fragPart : Option (List Char) → List Char
  | none => []
  | some f => '#' :: f

def authorityChars (r : UrlRec) : List Char :=
  userinfoPart r ++ (r.host ++ portPart r.port)

def pathQF (r : UrlRec) : List Char :=
  r.path ++ (queryPart r.query ++ fragPart r.fragment)

/-- Modelled from the spec (section 4.5): serialize the record back to a
string, scheme, colon, double slash, userinfo, host, port, path, query,
fragment. -/
def serializeList (r : UrlRec) : List Char :=
  r.scheme ++ ':' :: '/' :: '/' :: (authorityChars r ++ pathQF r)

/-! ## The parser -/

/-- Scheme scanner: leading run of ASCII letters followed by colon and
double slash. -/
def parseScheme (l : List Char) : Option (List Char × List Char) :=
  match l.dropWhile Char.isAlpha with
  | a :: b :: c :: rest =>
    if a = ':' ∧ b = '/' ∧ c = '/' then
      if l.takeWhile Char.isAlpha = [] then none
      else some (l.takeWhile Char.isAlpha, rest)
    else none
  | _ => none

/-- Split the authority chunk at the last at-sign into userinfo
(user, password) and host-port text. -/
def splitUserinfo (chunk : List Char) : List Char × List Char × List Char :=
  ((splitLastSep '@' chunk).map (fun x =>
      (x.1.takeWhile (fun c => c != ':'),
       (x.1.dropWhile (fun c => c != ':')).drop 1,
       x.2))).getD ([], [], chunk)

/-- Parse the host and optional port of the authority; the port must be
all digits, fit in sixteen bits, and is normalized away when it equals
the scheme's default port. -/
def parseHostPort (scheme hp : List Char) : Option (List Char × Option Nat) :=
  let host := hp.takeWhile (fun c => c != ':')
  if host = [] then none
  else
    match hp.dropWhile (fun c => c != ':') with
    | [] => some (host, none)
    | a :: ds =>
      if a = ':' then
        if ds = [] then none
        else if ds.all Char.isDigit then
          if charsToNat ds ≤ 65535 then
            some (host,
              if defaultPort scheme = some (charsToNat ds) then none
              else some (charsToNat ds))
          else none
        else none
      else none

/-- Path splitter: an empty path is normalized to a single slash. -/
def splitPath (rest : List Char) : List Char × List Char :=
  match rest with
  | [] => (['/'], [])
  | a :: t =>
    if a = '/' then
      ((a :: t).takeWhile (fun c => !isPathDelim c),
       (a :: t).dropWhile (fun c => !isPathDelim c))
    else (['/'], a :: t)

/-- Query and fragment scanner. -/
def parseQF (rest : List Char) : Option (Option (List Char) × Option (List Char)) :=
  match rest with
  | [] => some (none, none)
  | a :: t =>
    if a = '?' then
      match t.dropWhile (fun c => c != '#') with
      | [] => some (some (t.takeWhile (fun c => c != '#')), none)
      | b :: f => if b = '#' then some (some (t.takeWhile (fun c => c != '#')), some f)
                  else none
    else if a = '#' then some (none, some t)
    else none

/-- Modelled from the spec (section 4.3): single-pass parse of an
absolute hierarchical URL into a URL record; all-or-nothing. -/
def parseList (l : List Char) : Option UrlRec :=
  (parseScheme l).bind fun sr =>
    (parseHostPort sr.1
        (splitUserinfo (sr.2.takeWhile (fun c => !isAuthEnd c))).2.2).bind fun hp =>
      (parseQF (splitPath (sr.2.dropWhile (fun c => !isAuthEnd c))).2).bind fun qf =>
        some ⟨sr.1,
              (splitUserinfo (sr.2.takeWhile (fun c => !isAuthEnd c))).1,
              (splitUserinfo (sr.2.takeWhile (fun c => !isAuthEnd c))).2.1,
              hp.1, hp.2,
              (splitPath (sr.2.dropWhile (fun c => !isAuthEnd c))).1,
              qf.1, qf.2⟩

/-! ## Well-formedness of parsed records -/

/-- The invariants every record produced by the parser satisfies
(section 3 of the spec lists the corresponding record invariants). -/
def WF (r : UrlRec) : Prop :=
  r.scheme ≠ [] ∧ (∀ c ∈ r.scheme, Char.isAlpha c = true) ∧
  (∀ c ∈ r.username, isAuthEnd c = false ∧ c ≠ ':') ∧
  (∀ c ∈ r.password, isAuthEnd c = false) ∧
  r.host ≠ [] ∧ (∀ c ∈ r.host, isAuthEnd c = false ∧ c ≠ ':' ∧ c ≠ '@') ∧
  (∀ n, r.port = some n → n ≤ 65535 ∧ defaultPort r.scheme ≠ some n) ∧
  (∃ t, r.path = '/' :: t) ∧ (∀ c ∈ r.path, isPathDelim c = false) ∧
  (∀ q, r.query = some q → ∀ c ∈ q, c ≠ '#')

theorem mem_of_mem_dropWhile {α : Type} (p : α → Bool) (l : List α) :
    ∀ x ∈ l.dropWhile p, x ∈ l := by
  induction l with
  | nil => intro x hx; simp at hx
  | cons a t ih =>
    intro x hx
    by_cases ha : p a = true
    · rw [List.dropWhile_cons_of_pos ha] at hx
      exact List.mem_cons_of_mem a (ih x hx)
    · rw [List.dropWhile_cons_of_neg ha] at hx
      exact hx

theorem mem_of_mem_drop {α : Type} (n : Nat) (l : List α) :
    ∀ x ∈ l.drop n, x ∈ l := by
  intro x hx
  exact List.mem_of_mem_drop hx

theorem digitChar_delims (d : Nat) :
    isAuthEnd (digitChar d) = false ∧ digitChar d ≠ '@' ∧ digitChar d ≠ ':' ∧
      isPathDelim (digitChar d) = false := by
  match d with
  | 0 => decide
  | 1 => decide
  | 2 => decide
  | 3 => decide
  | 4 => decide
  | 5 => decide
  | 6 => decide
  | 7 => decide
  | 8 => decide
  | 9 => decide
  | _ + 10 =>
    exact (by decide :
      isAuthEnd '0' = false ∧ ('0' : Char) ≠ '@' ∧ ('0' : Char) ≠ ':' ∧
        isPathDelim '0' = false)

theorem parseScheme_sound (l : List Char) (sr : List Char × List Char)
    (h : parseScheme l = some sr) :
    sr.1 ≠ [] ∧ (∀ c ∈ sr.1, Char.isAlpha c = true) := by
  unfold parseScheme at h
  cases hd : l.dropWhile Char.isAlpha with
  | nil => rw [hd] at h; simp at h
  | cons a t =>
    rw [hd] at h
    cases t with
    | nil => simp at h
    | cons b u =>
      cases u with
      | nil => simp at h
      | cons e v =>
        by_cases habc : a = ':' ∧ b = '/' ∧ e = '/'
        · simp only [if_pos habc] at h
          by_cases hemp : l.takeWhile Char.isAlpha = []
          · simp [hemp] at h
          · simp only [if_neg hemp, Option.some.injEq] at h
            subst h
            refine ⟨hemp, ?_⟩
            intro c hc
            exact (mem_takeWhile_part Char.isAlpha l c hc).1
        · simp [habc] at h

theorem splitUserinfo_sound (chunk : List Char)
    (hc : ∀ c ∈ chunk, isAuthEnd c = false) :
    (∀ c ∈ (splitUserinfo chunk).1, isAuthEnd c = false ∧ c ≠ ':') ∧
    (∀ c ∈ (splitUserinfo chunk).2.1, isAuthEnd c = false) ∧
    (∀ c ∈ (splitUserinfo chunk).2.2, isAuthEnd c = false) ∧
    '@' ∉ (splitUserinfo chunk).2.2 := by
  unfold splitUserinfo
  cases hs : splitLastSep '@' chunk with
  | some x =>
    rcases splitLastSep_mem '@' chunk x.1 x.2 (by rw [hs]) with ⟨ha, hb, hata⟩
    simp only [Option.map_some', Option.getD_some]
    refine ⟨?_, ?_, ?_, hata⟩
    · intro c hcm
      rcases mem_takeWhile_part _ x.1 c hcm with ⟨hp, hmem⟩
      refine ⟨hc c (ha c hmem), by simpa using hp⟩
    · intro c hcm
      have hmem : c ∈ x.1 :=
        mem_of_mem_dropWhile _ x.1 c (mem_of_mem_drop 1 _ c hcm)
      exact hc c (ha c hmem)
    · intro c hcm
      exact hc c (hb c hcm)
  | none =>
    have hat : '@' ∉ chunk := by
      intro hm
      exact splitLastSep_ne_none_of_mem '@' chunk hm hs
    exact ⟨by intro c hcm; simp at hcm, by intro c hcm; simp at hcm,
      by intro c hcm; exact hc c hcm, hat⟩

theorem parseHostPort_sound (sch hp : List Char) (x : List Char × Option Nat)
    (h : parseHostPort sch hp = some x)
    (hauth : ∀ c ∈ hp, isAuthEnd c = false) (hat : '@' ∉ hp) :
    x.1 ≠ [] ∧ (∀ c ∈ x.1, isAuthEnd c = false ∧ c ≠ ':' ∧ c ≠ '@') ∧
    (∀ n, x.2 = some n → n ≤ 65535 ∧ defaultPort sch ≠ some n) := by
  unfold parseHostPort at h
  by_cases hemp : hp.takeWhile (fun c => c != ':') = []
  · simp [hemp] at h
  · simp only [if_neg hemp] at h
    have hhost : ∀ c ∈ hp.takeWhile (fun c => c != ':'),
        isAuthEnd c = false ∧ c ≠ ':' ∧ c ≠ '@' := by
      intro c hcm
      rcases mem_takeWhile_part _ hp c hcm with ⟨hpp, hmem⟩
      refine ⟨hauth c hmem, by simpa using hpp, ?_⟩
      intro hceq; subst hceq; exact hat hmem
    cases hd : hp.dropWhile (fun c => c != ':') with
    | nil =>
      rw [hd] at h
      simp only [Option.some.injEq] at h
      subst h
      exact ⟨hemp, hhost, by intro n hn; simp at hn⟩
    | cons a ds =>
      rw [hd] at h
      by_cases ha : a = ':'
      · simp only [if_pos ha] at h
        by_cases hds : ds = []
        · simp [hds] at h
        · simp only [if_neg hds] at h
          by_cases hdig : ds.all Char.isDigit = true
          · simp only [if_pos hdig] at h
            by_cases hle : charsToNat ds ≤ 65535
            · simp only [if_pos hle, Option.some.injEq] at h
              subst h
              refine ⟨hemp, hhost, ?_⟩
              intro n hn
              by_cases hdef : defaultPort sch = some (charsToNat ds)
              · simp [hdef] at hn
              · simp only [if_neg hdef, Option.some.injEq] at hn
                subst hn
                exact ⟨hle, hdef⟩
            · simp [hle] at h
          · simp [hdig] at h
      · simp [ha] at h

theorem splitPath_sound (rest : List Char) :
    (∃ t, (splitPath rest).1 = '/' :: t) ∧
    (∀ c ∈ (splitPath rest).1, isPathDelim c = false) := by
  cases rest with
  | nil =>
    exact ⟨⟨[], rfl⟩, by intro c hc; simp [splitPath] at hc; subst hc; decide⟩
  | cons a t =>
    by_cases ha : a = '/'
    · subst ha
      have hred : splitPath ('/' :: t)
          = (('/' :: t).takeWhile (fun c => !isPathDelim c),
             ('/' :: t).dropWhile (fun c => !isPathDelim c)) := by
        simp [splitPath]
      rw [hred]
      constructor
      · exact ⟨t.takeWhile (fun c => !isPathDelim c),
          List.takeWhile_cons_of_pos (p := fun c => !isPathDelim c) (a := '/')
            (l := t) (by decide)⟩
      · intro c hc
        rcases mem_takeWhile_part _ _ c hc with ⟨hpp, _⟩
        simpa using hpp
    · have hred : splitPath (a :: t) = (['/'], a :: t) := by
        simp [splitPath, ha]
      rw [hred]
      exact ⟨⟨[], rfl⟩, by intro c hc; simp at hc; subst hc; decide⟩

theorem parseQF_sound (rest : List Char)
    (qf : Option (List Char) × Option (List Char))
    (h : parseQF rest = some qf) :
    ∀ q, qf.1 = some q → ∀ c ∈ q, c ≠ '#' := by
  unfold parseQF at h
  cases rest with
  | nil =>
    simp only [Option.some.injEq] at h
    subst h
    intro q hq; simp at hq
  | cons a t =>
    by_cases ha : a = '?'
    · simp only [if_pos ha] at h
      cases hd : t.dropWhile (fun c => c != '#') with
      | nil =>
        rw [hd] at h
        simp only [Option.some.injEq] at h
        subst h
        intro q hq
        simp only [Option.some.injEq] at hq
        subst hq
        intro c hc
        have := (mem_takeWhile_part _ t c hc).1
        simpa using this
      | cons b u =>
        rw [hd] at h
        by_cases hb : b = '#'
        · simp only [if_pos hb, Option.some.injEq] at h
          subst h
          intro q hq
          simp only [Option.some.injEq] at hq
          subst hq
          intro c hc
          have := (mem_takeWhile_part _ t c hc).1
          simpa using this
        · simp [hb] at h
    · simp only [if_neg ha] at h
      by_cases ha2 : a = '#'
      · simp only [if_pos ha2, Option.some.injEq] at h
        subst h
        intro q hq; simp at hq
      · simp [ha2] at h

/-- Every record the parser produces satisfies the record invariants. -/
theorem parse_wf (l : List Char) (r : UrlRec) (h : parseList l = some r) : WF r := by
  unfold parseList at h
  cases hps : parseScheme l with
  | none => rw [hps, Option.none_bind] at h; exact Option.noConfusion h
  | some sr =>
    rw [hps, Option.some_bind] at h
    cases hhp : parseHostPort sr.1
        (splitUserinfo (sr.2.takeWhile (fun c => !isAuthEnd c))).2.2 with
    | none => rw [hhp, Option.none_bind] at h; exact Option.noConfusion h
    | some hp =>
      rw [hhp, Option.some_bind] at h
      cases hqf : parseQF (splitPath (sr.2.dropWhile (fun c => !isAuthEnd c))).2 with
      | none => rw [hqf, Option.none_bind] at h; exact Option.noConfusion h
      | some qf =>
        rw [hqf, Option.some_bind, Option.some.injEq] at h
        subst h
        have hchunk : ∀ c ∈ sr.2.takeWhile (fun c => !isAuthEnd c),
            isAuthEnd c = false := by
          intro c hc
          have := (mem_takeWhile_part _ sr.2 c hc).1
          simpa using this
        rcases parseScheme_sound l sr hps with ⟨hs1, hs2⟩
        rcases splitUserinfo_sound _ hchunk with ⟨hu, hpw, hhpc, hhat⟩
        rcases parseHostPort_sound sr.1 _ hp hhp hhpc hhat with ⟨hh1, hh2, hh3⟩
        rcases splitPath_sound (sr.2.dropWhile (fun c => !isAuthEnd c)) with ⟨hp1, hp2⟩
        have hq := parseQF_sound _ qf hqf
        exact ⟨hs1, hs2, hu, hpw, hh1, hh2, hh3, hp1, hp2, hq⟩

/-! ## Round trip: parsing a serialized well-formed record recovers it -/

theorem dropWhile_eq_self_of_takeWhile_eq_nil {α : Type} (p : α → Bool) (l : List α)
    (h : l.takeWhile p = []) : l.dropWhile p = l := by
  cases l with
  | nil => rfl
  | cons a t =>
    by_cases ha : p a = true
    · rw [List.takeWhile_cons_of_pos ha] at h; exact absurd h (by simp)
    · rw [List.dropWhile_cons_of_neg ha]

theorem natToChars_authEnd (n : Nat) : ∀ c ∈ natToChars n, isAuthEnd c = false := by
  intro c hc
  have := natToChars_all (P := fun c => !isAuthEnd c)
    (fun d => by simp [(digitChar_delims d).1]) n c hc
  simpa using this

theorem natToChars_ne_at (n : Nat) : ∀ c ∈ natToChars n, c ≠ '@' := by
  intro c hc
  have := natToChars_all (P := fun c => c != '@')
    (fun d => by simp [(digitChar_delims d).2.1]) n c hc
  simpa using this

theorem natToChars_all_digit (n : Nat) : (natToChars n).all Char.isDigit = true := by
  rw [List.all_eq_true]
  intro c hc
  exact natToChars_all (fun d => digitChar_isDigit d) n c hc

theorem parseScheme_roundtrip (sch rest : List Char) (h1 : sch ≠ [])
    (h2 : ∀ c ∈ sch, Char.isAlpha c = true) :
    parseScheme (sch ++ ':' :: '/' :: '/' :: rest) = some (sch, rest) := by
  have hdrop : (sch ++ ':' :: '/' :: '/' :: rest).dropWhile Char.isAlpha
      = ':' :: '/' :: '/' :: rest := by
    rw [dropWhile_append_of_all _ sch _ h2, List.dropWhile_cons_of_neg (by decide)]
  have htake : (sch ++ ':' :: '/' :: '/' :: rest).takeWhile Char.isAlpha = sch := by
    rw [takeWhile_append_of_all _ sch _ h2,
      List.takeWhile_cons_of_neg (by decide), List.append_nil]
  unfold parseScheme
  rw [hdrop, htake]
  simp [h1]

theorem splitUserinfo_roundtrip (u p rest : List Char)
    (hu : ∀ c ∈ u, c ≠ ':') (hrest : '@' ∉ rest) :
    splitUserinfo (userinfoChars u p ++ rest) = (u, p, rest) := by
  have huall : ∀ c ∈ u, (c != ':') = true := by
    intro c hc; simpa using hu c hc
  by_cases hup : u = [] ∧ p = []
  · rcases hup with ⟨hu0, hp0⟩
    subst hu0; subst hp0
    have h0 : userinfoChars [] [] = [] := by simp [userinfoChars]
    rw [h0, List.nil_append]
    unfold splitUserinfo
    rw [splitLastSep_eq_none '@' rest hrest]
    rfl
  · have hassoc : userinfoChars u p ++ rest
        = (u ++ (if p = [] then [] else ':' :: p)) ++ '@' :: rest := by
      unfold userinfoChars
      rw [if_neg hup]
      simp
    rw [hassoc]
    unfold splitUserinfo
    rw [splitLastSep_append '@' _ rest hrest]
    simp only [Option.map_some', Option.getD_some]
    by_cases hp0 : p = []
    · rw [if_pos hp0, List.append_nil,
        takeWhile_of_all _ u huall, dropWhile_of_all _ u huall]
      simp [hp0]
    · rw [if_neg hp0,
        takeWhile_append_of_all _ u _ huall, List.takeWhile_cons_of_neg (by decide),
        List.append_nil, dropWhile_append_of_all _ u _ huall,
        List.dropWhile_cons_of_neg (by decide)]
      rfl

theorem parseHostPort_roundtrip (sch host : List Char) (port : Option Nat)
    (hne : host ≠ []) (hh : ∀ c ∈ host, c ≠ ':')
    (hport : ∀ n, port = some n → n ≤ 65535 ∧ defaultPort sch ≠ some n) :
    parseHostPort sch (host ++ portPart port) = some (host, port) := by
  have hall : ∀ c ∈ host, (c != ':') = true := by
    intro c hc; simpa using hh c hc
  cases port with
  | none =>
    simp only [portPart, List.append_nil]
    unfold parseHostPort
    rw [takeWhile_of_all _ host hall, dropWhile_of_all _ host hall]
    simp [hne]
  | some n =>
    simp only [portPart]
    unfold parseHostPort
    rw [takeWhile_append_of_all _ host _ hall, List.takeWhile_cons_of_neg (by decide),
      List.append_nil, dropWhile_append_of_all _ host _ hall,
      List.dropWhile_cons_of_neg (by decide)]
    rcases hport n rfl with ⟨hle, hdef⟩
    simp [hne, natToChars_ne_nil n, natToChars_all_digit n,
      charsToNat_natToChars, hle, hdef]

theorem splitPath_roundtrip (t rest : List Char)
    (hall : ∀ c ∈ '/' :: t, isPathDelim c = false)
    (hrest : rest.takeWhile (fun c => !isPathDelim c) = []) :
    splitPath (('/' :: t) ++ rest) = ('/' :: t, rest) := by
  have hall2 : ∀ c ∈ '/' :: t, (!isPathDelim c) = true := by
    intro c hc; simp [hall c hc]
  have hred : splitPath ('/' :: (t ++ rest))
      = (('/' :: (t ++ rest)).takeWhile (fun c => !isPathDelim c),
         ('/' :: (t ++ rest)).dropWhile (fun c => !isPathDelim c)) := by
    simp [splitPath]
  rw [List.cons_append, hred, ← List.cons_append,
    takeWhile_append_of_all _ ('/' :: t) rest hall2, hrest, List.append_nil,
    dropWhile_append_of_all _ ('/' :: t) rest hall2,
    dropWhile_eq_self_of_takeWhile_eq_nil _ rest hrest]

theorem parseQF_roundtrip (q f : Option (List Char))
    (hq : ∀ x, q = some x → ∀ c ∈ x, c ≠ '#') :
    parseQF (queryPart q ++ fragPart f) = some (q, f) := by
  cases q with
  | none =>
    cases f with
    | none => rfl
    | some fl => simp [parseQF, queryPart, fragPart]
  | some ql =>
    have hql : ∀ c ∈ ql, (c != '#') = true := by
      intro c hc; simpa using hq ql rfl c hc
    cases f with
    | none =>
      have h1 : ql.dropWhile (fun c => c != '#') = [] := dropWhile_of_all _ ql hql
      have h2 : ql.takeWhile (fun c => c != '#') = ql := takeWhile_of_all _ ql hql
      simp [parseQF, queryPart, fragPart, h1, h2]
    | some fl =>
      have h1 : (ql ++ '#' :: fl).dropWhile (fun c => c != '#') = '#' :: fl := by
        rw [dropWhile_append_of_all _ ql _ hql, List.dropWhile_cons_of_neg (by decide)]
      have h2 : (ql ++ '#' :: fl).takeWhile (fun c => c != '#') = ql := by
        rw [takeWhile_append_of_all _ ql _ hql,
          List.takeWhile_cons_of_neg (by decide), List.append_nil]
      simp [parseQF, queryPart, fragPart, h1, h2]

/-- Parsing the serialization of any well-formed record gives it back. -/
theorem serialize_parse (r : UrlRec) (h : WF r) :
    parseList (serializeList r) = some r := by
  obtain ⟨sch, u, pw, host, port, path, q, f⟩ := r
  obtain ⟨hs1, hs2, hu, hpw, hh1, hh2, hp3, ⟨t, hpath⟩, hpath2, hq⟩ := h
  simp only [] at hs1 hs2 hu hpw hh1 hh2 hp3 hpath hpath2 hq
  subst hpath
  have hser : serializeList ⟨sch, u, pw, host, port, '/' :: t, q, f⟩
      = sch ++ ':' :: '/' :: '/' ::
          ((userinfoChars u pw ++ (host ++ portPart port)) ++
            (('/' :: t) ++ (queryPart q ++ fragPart f))) := rfl
  have hauthall : ∀ c ∈ userinfoChars u pw ++ (host ++ portPart port),
      (!isAuthEnd c) = true := by
    intro c hc
    rcases List.mem_append.mp hc with h1 | h1
    · unfold userinfoChars at h1
      by_cases hup : u = [] ∧ pw = []
      · rw [if_pos hup] at h1; simp at h1
      · rw [if_neg hup] at h1
        rcases List.mem_append.mp h1 with h2 | h2
        · rcases List.mem_append.mp h2 with h3 | h3
          · simp [(hu c h3).1]
          · by_cases hpw0 : pw = []
            · rw [if_pos hpw0] at h3; simp at h3
            · rw [if_neg hpw0] at h3
              rcases List.mem_cons.mp h3 with h4 | h4
              · subst h4; decide
              · simp [hpw c h4]
        · simp only [List.mem_singleton] at h2
          subst h2; decide
    · rcases List.mem_append.mp h1 with h2 | h2
      · simp [(hh2 c h2).1]
      · cases hport : port with
        | none => rw [hport] at h2; simp [portPart] at h2
        | some n =>
          rw [hport] at h2
          simp only [portPart] at h2
          rcases List.mem_cons.mp h2 with h3 | h3
          · subst h3; decide
          · simp [natToChars_authEnd n c h3]
  have hchunk : ((userinfoChars u pw ++ (host ++ portPart port)) ++
        (('/' :: t) ++ (queryPart q ++ fragPart f))).takeWhile (fun c => !isAuthEnd c)
      = userinfoChars u pw ++ (host ++ portPart port) := by
    rw [takeWhile_append_of_all _ _ _ hauthall, List.cons_append,
      List.takeWhile_cons_of_neg (by decide), List.append_nil]
  have hrest2 : ((userinfoChars u pw ++ (host ++ portPart port)) ++
        (('/' :: t) ++ (queryPart q ++ fragPart f))).dropWhile (fun c => !isAuthEnd c)
      = ('/' :: t) ++ (queryPart q ++ fragPart f) := by
    rw [dropWhile_append_of_all _ _ _ hauthall, List.cons_append,
      List.dropWhile_cons_of_neg (by decide), ← List.cons_append]
  have hat : '@' ∉ host ++ portPart port := by
    intro hm
    rcases List.mem_append.mp hm with h1 | h1
    · exact (hh2 '@' h1).2.2 rfl
    · cases hport : port with
      | none => rw [hport] at h1; simp [portPart] at h1
      | some n =>
        rw [hport] at h1
        simp only [portPart] at h1
        rcases List.mem_cons.mp h1 with h3 | h3
        · exact absurd h3.symm (by decide)
        · exact natToChars_ne_at n '@' h3 rfl
  have hsplitui : splitUserinfo (userinfoChars u pw ++ (host ++ portPart port))
      = (u, pw, host ++ portPart port) :=
    splitUserinfo_roundtrip u pw _ (fun c hc => (hu c hc).2) hat
  have hhp : parseHostPort sch (host ++ portPart port) = some (host, port) :=
    parseHostPort_roundtrip sch host port hh1 (fun c hc => (hh2 c hc).2.1) hp3
  have hqfrest : (queryPart q ++ fragPart f).takeWhile (fun c => !isPathDelim c)
      = [] := by
    cases q with
    | none =>
      cases f with
      | none => rfl
      | some fl =>
        simp only [queryPart, fragPart, List.nil_append]
        rw [List.takeWhile_cons_of_neg (by decide)]
    | some ql =>
      simp only [queryPart, List.cons_append]
      rw [List.takeWhile_cons_of_neg (by decide)]
  have hsp : splitPath (('/' :: t) ++ (queryPart q ++ fragPart f))
      = ('/' :: t, queryPart q ++ fragPart f) :=
    splitPath_roundtrip t _ hpath2 hqfrest
  have hqf : parseQF (queryPart q ++ fragPart f) = some (q, f) :=
    parseQF_roundtrip q f hq
  unfold parseList
  rw [hser, parseScheme_roundtrip sch _ hs1 hs2, Option.some_bind]
  simp only [hchunk, hrest2, hsplitui, hhp, hsp, hqf, Option.some_bind]

/-! ## The engine entry points

Modelled from the spec (section 6): the C functions declared in
src/src/ffi.rs and implemented by the engine.  A possibly-invalid
engine pointer is modelled as an Option of the record. -/

def ada_parse (input : String) : Option UrlRec :=
  parseList input.data

def ada_is_valid (url : Option UrlRec) : Bool :=
  url.isSome

/-- Modelled from the spec (section 4.3): with a base URL, an input that
itself parses is taken absolutely; an absolute-path reference is
resolved against the base's scheme and authority; everything else is
rejected (richer relative forms are out of the modelled fragment). -/
def ada_parse_with_base (input base : String) : Option UrlRec :=
  match parseList input.data with
  | some r => some r
  | none =>
    match parseList base.data with
    | some b =>
      match input.data with
      | [] => none
      | a :: t =>
        if a = '/' then
          (parseQF (splitPath (a :: t)).2).map fun qf =>
            { b with path := (splitPath (a :: t)).1, query := qf.1, fragment := qf.2 }
        else none
    | none => none

/-- Modelled from the spec (section 6): the validity probe is equivalent
to parse followed by the ok test, short-circuiting internally. -/
def ada_can_parse (input : String) : Bool :=
  (ada_parse input).isSome

def ada_can_parse_with_base (input base : String) : Bool :=
  (ada_parse_with_base input base).isSome

/-! ## The Rust wrapper layer (embedded from src/src/lib.rs) -/

/-- Error type of parse (src/src/lib.rs, struct ParseUrlError). -/
structure ParseUrlError (Input : Type) where
  input : Input
deriving DecidableEq, Repr

namespace Url

/-- Embeds Url::parse of src/src/lib.rs: call the engine (with or
without base), test validity, and wrap in ok or error. -/
def parse (input : String) (base : Option String) :
    Except (ParseUrlError String) UrlRec :=
  match base with
  | some b =>
    match ada_parse_with_base input b with
    | some u => Except.ok u
    | none => Except.error ⟨input⟩
  | none =>
    match ada_parse input with
    | some u => Except.ok u
    | none => Except.error ⟨input⟩

/-- Embeds Url::can_parse of src/src/lib.rs. -/
def can_parse (input : String) (base : Option String) : Bool :=
  match base with
  | some b => ada_can_parse_with_base input b
  | none => ada_can_parse input

/-- Embeds Url::href of src/src/lib.rs: the full serialization. -/
def href (r : UrlRec) : String :=
  ⟨serializeList r⟩

/-- Embeds Url::port of src/src/lib.rs (engine getter: digits of the
port, or the empty string). -/
def port (r : UrlRec) : String :=
  match r.port with
  | none => ""
  | some n => ⟨natToChars n⟩

/-- Embeds Url::has_port of src/src/lib.rs (engine: whether the port
component is present). -/
def has_port (r : UrlRec) : Bool :=
  r.port.isSome

end Url

theorem parse_none_ok (s : String) (r : UrlRec)
    (h : Url.parse s none = Except.ok r) : parseList s.data = some r := by
  unfold Url.parse at h
  cases hp : ada_parse s with
  | none => rw [hp] at h; exact Except.noConfusion h
  | some u =>
    rw [hp] at h
    simp only [Except.ok.injEq] at h
    subst h
    exact hp

/-! ## Setters

Modelled from the spec (section 4.4): every fallible setter works on a
clone-then-commit discipline; the attempt functions below compute the
mutated scratch copy, and commit either installs it or leaves the
original untouched. -/

def okUserChar (c : Char) : Bool := !isAuthEnd c && c != ':'

def okPassChar (c : Char) : Bool := !isAuthEnd c

def okHostChar (c : Char) : Bool := !isAuthEnd c && c != ':' && c != '@'

/-- Clone-then-commit: install the scratch copy on success, keep the
original and report failure otherwise. -/
def commitSetter (attempt : Option UrlRec) (r : UrlRec) : Bool × UrlRec :=
  match attempt with
  | some r2 => (true, r2)
  | none => (false, r)

/-- Modelled from the spec: set_href re-runs the full parser. -/
def trySetHref (_r : UrlRec) (s : List Char) : Option UrlRec :=
  match parseList s with
  | some r2 => some r2
  | none => none

/-- Modelled from the spec: set_protocol validates the scheme grammar
(an optional trailing colon is accepted) and re-normalizes the default
port. -/
def trySetProtocol (r : UrlRec) (s : List Char) : Option UrlRec :=
  let sch := match s.getLast? with
    | some c => if c = ':' then s.dropLast else s
    | none => s
  if sch ≠ [] ∧ sch.all Char.isAlpha then
    some { r with
      scheme := sch,
      port := match r.port with
        | some n => if defaultPort sch = some n then none else some n
        | none => none }
  else none

/-- Modelled from the spec: set_username percent-encodes with the
userinfo set; the model rejects characters the serializer could not
round-trip instead of encoding them. -/
def trySetUsername (r : UrlRec) (s : List Char) : Option UrlRec :=
  if s.all okUserChar then some { r with username := s } else none

def trySetPassword (r : UrlRec) (s : List Char) : Option UrlRec :=
  if s.all okPassChar then some { r with password := s } else none

/-- Modelled from the spec: set_host re-enters the host parser on a
host[:port] input; a missing port leaves the record's port unchanged. -/
def trySetHost (r : UrlRec) (s : List Char) : Option UrlRec :=
  let host := s.takeWhile (fun c => c != ':')
  if host = [] then none
  else if !host.all okHostChar then none
  else
    match s.dropWhile (fun c => c != ':') with
    | [] => some { r with host := host }
    | a :: ds =>
      if a = ':' then
        if ds = [] then none
        else if ds.all Char.isDigit then
          if charsToNat ds ≤ 65535 then
            some { r with
              host := host,
              port := if defaultPort r.scheme = some (charsToNat ds) then none
                      else some (charsToNat ds) }
          else none
        else none
      else none

/-- Modelled from the spec: set_hostname re-enters the host parser on a
bare host. -/
def trySetHostname (r : UrlRec) (s : List Char) : Option UrlRec :=
  if s ≠ [] ∧ s.all okHostChar then some { r with host := s } else none

/-- Modelled from the spec (section 4.4): set_port parses digits only,
rejects out-of-range or non-numeric input, clears on the empty string,
and normalizes the scheme's default port away. -/
def trySetPort (r : UrlRec) (s : List Char) : Option UrlRec :=
  if s = [] then some { r with port := none }
  else if s.all Char.isDigit then
    if charsToNat s ≤ 65535 then
      some { r with
        port := if defaultPort r.scheme = some (charsToNat s) then none
                else some (charsToNat s) }
    else none
  else none

/-- Modelled from the spec: set_pathname re-parses the path; the empty
input resets to the root path. -/
def trySetPathname (r : UrlRec) (s : List Char) : Option UrlRec :=
  match s with
  | [] => some { r with path := ['/'] }
  | a :: t =>
    if a = '/' then
      if (a :: t).all (fun c => !isPathDelim c) then some { r with path := a :: t }
      else none
    else none

/-- Engine-side boolean setters (the ada_set functions of
src/src/ffi.rs), state-passing form of the mutating C calls. -/
def ada_set_href (r : UrlRec) (s : List Char) : Bool × UrlRec :=
  commitSetter (trySetHref r s) r

def ada_set_protocol (r : UrlRec) (s : List Char) : Bool × UrlRec :=
  commitSetter (trySetProtocol r s) r

def ada_set_username (r : UrlRec) (s : List Char) : Bool × UrlRec :=
  commitSetter (trySetUsername r s) r

def ada_set_password (r : UrlRec) (s : List Char) : Bool × UrlRec :=
  commitSetter (trySetPassword r s) r

def ada_set_host (r : UrlRec) (s : List Char) : Bool × UrlRec :=
  commitSetter (trySetHost r s) r

def ada_set_hostname (r : UrlRec) (s : List Char) : Bool × UrlRec :=
  commitSetter (trySetHostname r s) r

def ada_set_port (r : UrlRec) (s : List Char) : Bool × UrlRec :=
  commitSetter (trySetPort r s) r

def ada_set_pathname (r : UrlRec) (s : List Char) : Bool × UrlRec :=
  commitSetter (trySetPathname r s) r

def ada_clear_port (r : UrlRec) : UrlRec :=
  { r with port := none }

/-- Embeds setter_result of src/src/lib.rs. -/
def setter_result (successful : Bool) : Except Unit Unit :=
  if successful then Except.ok () else Except.error ()

namespace Url

/-- Embeds Url::set_href of src/src/lib.rs. -/
def set_href (r : UrlRec) (input : String) : Except Unit Unit × UrlRec :=
  (setter_result (ada_set_href r input.data).1, (ada_set_href r input.data).2)

/-- Embeds Url::set_protocol of src/src/lib.rs. -/
def set_protocol (r : UrlRec) (input : String) : Except Unit Unit × UrlRec :=
  (setter_result (ada_set_protocol r input.data).1, (ada_set_protocol r input.data).2)

/-- Embeds Url::set_username of src/src/lib.rs (the input defaults to
the empty string when absent). -/
def set_username (r : UrlRec) (input : Option String) : Except Unit Unit × UrlRec :=
  (setter_result (ada_set_username r (input.getD "").data).1,
   (ada_set_username r (input.getD "").data).2)

/-- Embeds Url::set_password of src/src/lib.rs. -/
def set_password (r : UrlRec) (input : Option String) : Except Unit Unit × UrlRec :=
  (setter_result (ada_set_password r (input.getD "").data).1,
   (ada_set_password r (input.getD "").data).2)

/-- Embeds Url::set_host of src/src/lib.rs. -/
def set_host (r : UrlRec) (input : Option String) : Except Unit Unit × UrlRec :=
  (setter_result (ada_set_host r (input.getD "").data).1,
   (ada_set_host r (input.getD "").data).2)

/-- Embeds Url::set_hostname of src/src/lib.rs. -/
def set_hostname (r : UrlRec) (input : Option String) : Except Unit Unit × UrlRec :=
  (setter_result (ada_set_hostname r (input.getD "").data).1,
   (ada_set_hostname r (input.getD "").data).2)

/-- Embeds Url::set_port of src/src/lib.rs: a present input goes to the
engine setter, an absent input clears the port and reports ok. -/
def set_port (r : UrlRec) (input : Option String) : Except Unit Unit × UrlRec :=
  match input with
  | some v => (setter_result (ada_set_port r v.data).1, (ada_set_port r v.data).2)
  | none => (Except.ok (), ada_clear_port r)

/-- Embeds Url::set_pathname of src/src/lib.rs. -/
def set_pathname (r : UrlRec) (input : Option String) : Except Unit Unit × UrlRec :=
  (setter_result (ada_set_pathname r (input.getD "").data).1,
   (ada_set_pathname r (input.getD "").data).2)

end Url

/-- One call to any of the eight fallible setters of src/src/lib.rs. -/
inductive SetterCall where
  | href (input : String)
  | protocol (input : String)
  | username (input : Option String)
  | password (input : Option String)
  | host (input : Option String)
  | hostname (input : Option String)
  | port (input : Option String)
  | pathname (input : Option String)

def applySetter (r : UrlRec) : SetterCall → Except Unit Unit × UrlRec
  | .href s => Url.set_href r s
  | .protocol s => Url.set_protocol r s
  | .username s => Url.set_username r s
  | .password s => Url.set_password r s
  | .host s => Url.set_host r s
  | .hostname s => Url.set_hostname r s
  | .port s => Url.set_port r s
  | .pathname s => Url.set_pathname r s

theorem commitSetter_fail (att : Option UrlRec) (r : UrlRec)
    (h : (commitSetter att r).1 = false) : (commitSetter att r).2 = r := by
  cases att with
  | none => rfl
  | some r2 => simp [commitSetter] at h

theorem setter_result_error (b : Bool)
    (h : setter_result b = Except.error ()) : b = false := by
  cases b with
  | false => rfl
  | true => simp [setter_result] at h

/-! ## Components -/

/-- Embeds struct ada_url_components of src/src/ffi.rs: eight raw
32-bit offsets, with the u32 maximum as the absence sentinel. -/
structure ada_url_components where
  protocol_end : Nat
  username_end : Nat
  host_start : Nat
  host_end : Nat
  port : Nat
  pathname_start : Nat
  search_start : Nat
  hash_start : Nat
deriving DecidableEq, Repr

def u32MAX : Nat := 4294967295

/-- Embeds struct UrlComponents of src/src/lib.rs. -/
structure UrlComponents where
  protocol_end : Nat
  username_end : Nat
  host_start : Nat
  host_end : Nat
  port : Option Nat
  pathname_start : Option Nat
  search_start : Option Nat
  hash_start : Option Nat
deriving DecidableEq, Repr

/-- Embeds the From conversion of src/src/lib.rs (lines 139 to 156):
each optional field becomes some of the raw value when it differs from
the sentinel, none otherwise; the first four pass through. -/
def UrlComponents.ofRaw (value : ada_url_components) : UrlComponents :=
  let port := if value.port ≠ u32MAX then some value.port else none
  let pathname_start :=
    if value.pathname_start ≠ u32MAX then some value.pathname_start else none
  let search_start :=
    if value.search_start ≠ u32MAX then some value.search_start else none
  let hash_start :=
    if value.hash_start ≠ u32MAX then some value.hash_start else none
  { protocol_end := value.protocol_end
    username_end := value.username_end
    host_start := value.host_start
    host_end := value.host_end
    port := port
    pathname_start := pathname_start
    search_start := search_start
    hash_start := hash_start }

/-- Modelled from the spec (section 4.5): the component offsets the
engine records while serializing a record. -/
def Url.components (r : UrlRec) : UrlComponents :=
  let pe := r.scheme.length + 1
  let hs := pe + 2 + (userinfoPart r).length
  let he := hs + r.host.length
  let ps := he + (portPart r.port).length
  { protocol_end := pe
    username_end := pe + 2 + r.username.length
    host_start := hs
    host_end := he
    port := r.port
    pathname_start := some ps
    search_start := r.query.map (fun _ => ps + r.path.length)
    hash_start := r.fragment.map
      (fun _ => ps + r.path.length + (queryPart r.query).length) }

/-! ## Comparison, ordering and hashing (embedded from src/src/lib.rs) -/

/-- Embeds the PartialEq impl: URLs compare like their stringification. -/
def Url.beq (a b : UrlRec) : Bool :=
  Url.href a == Url.href b

/-- Embeds the Ord impl: href comparison. -/
def Url.cmp (a b : UrlRec) : Ordering :=
  compare (Url.href a) (Url.href b)

/-- Embeds the Hash impl: the hasher state is fed exactly the href. -/
def Url.hashWith (hasher : String → Nat) (u : UrlRec) : Nat :=
  hasher (Url.href u)

/-! ## The query string engine

Modelled from the spec (section 4.6): the urlencoded pair model behind
URLSearchParams (the C++ side of src/src/url_search_params.rs).  The
percent codec works on code points below 256; multi-byte UTF-8
expansion is outside the modelled fragment. -/

/-- Split a character list on every occurrence of a separator. -/
def splitSep (sep : Char) : List Char → List (List Char)
  | [] => [[]]
  | c :: t =>
    if c = sep then [] :: splitSep sep t
    else
      match splitSep sep t with
      | [] => [[c]]
      | h :: r => (c :: h) :: r

/-- Join character lists with a separator (inverse of splitSep). -/
def joinSep (sep : Char) : List (List Char) → List Char
  | [] => []
  | [l] => l
  | l :: l2 :: r => l ++ sep :: joinSep sep (l2 :: r)

theorem splitSep_ne_nil (sep : Char) (l : List Char) : splitSep sep l ≠ [] := by
  cases l with
  | nil => simp [splitSep]
  | cons c t =>
    by_cases hc : c = sep
    · simp [splitSep, hc]
    · simp only [splitSep, if_neg hc]
      cases splitSep sep t <;> simp

theorem joinSep_splitSep (sep : Char) (l : List Char) :
    joinSep sep (splitSep sep l) = l := by
  induction l with
  | nil => rfl
  | cons c t ih =>
    by_cases hc : c = sep
    · simp only [splitSep, if_pos hc]
      cases hs : splitSep sep t with
      | nil => exact absurd hs (splitSep_ne_nil sep t)
      | cons h r =>
        rw [hs] at ih
        simp [joinSep, ih, hc]
    · simp only [splitSep, if_neg hc]
      cases hs : splitSep sep t with
      | nil => exact absurd hs (splitSep_ne_nil sep t)
      | cons h r =>
        rw [hs] at ih
        cases r with
        | nil => simp [joinSep] at ih ⊢; exact ih
        | cons h2 r2 => simp [joinSep] at ih ⊢; rw [ih]

def hexVal (c : Char) : Option Nat :=
  if '0' ≤ c ∧ c ≤ '9' then some (c.toNat - 48)
  else if 'A' ≤ c ∧ c ≤ 'F' then some (c.toNat - 55)
  else if 'a' ≤ c ∧ c ≤ 'f' then some (c.toNat - 87)
  else none

/-- Percent decoding: valid triplets decode, malformed sequences pass
through untouched. -/
def percentDecode : List Char → List Char
  | [] => []
  | '%' :: a :: b :: t =>
    match hexVal a, hexVal b with
    | some x, some y => Char.ofNat (16 * x + y) :: percentDecode t
    | _, _ => '%' :: percentDecode (a :: b :: t)
  | c :: t => c :: percentDecode t

/-- Form-urlencoded preprocessing: plus becomes space before decoding. -/
def plusToSpace (l : List Char) : List Char :=
  l.map (fun c => if c = '+' then ' ' else c)

def decodeComponent (l : List Char) : List Char :=
  percentDecode (plusToSpace l)

def hexDigitChar : Nat → Char
  | 0 => '0' | 1 => '1' | 2 => '2' | 3 => '3' | 4 => '4'
  | 5 => '5' | 6 => '6' | 7 => '7' | 8 => '8' | 9 => '9'
  | 10 => 'A' | 11 => 'B' | 12 => 'C' | 13 => 'D' | 14 => 'E' | 15 => 'F'
  | _ + 16 => '0'

def isFormSafe (c : Char) : Bool :=
  c.isAlphanum || c = '*' || c = '-' || c = '.' || c = '_'

/-- Form-urlencoded character encoding: space to plus, safe characters
verbatim, anything else as an uppercase percent triplet. -/
def formEncodeChar (c : Char) : List Char :=
  if c = ' ' then ['+']
  else if isFormSafe c then [c]
  else ['%', hexDigitChar (c.toNat / 16 % 16), hexDigitChar (c.toNat % 16)]

def formEncode (l : List Char) : List Char :=
  (l.map formEncodeChar).flatten

/-- Modelled from the spec (section 4.6): parse a query string into an
ordered pair list; split on the ampersand, split each pair at the first
equals sign, skip empty pairs, decode both sides. -/
def parsePairs (l : List Char) : List (String × String) :=
  if l = [] then []
  else
    (splitSep '&' l).filterMap fun p =>
      if p = [] then none
      else
        some (⟨decodeComponent (p.takeWhile (fun c => c != '='))⟩,
              ⟨decodeComponent ((p.dropWhile (fun c => c != '=')).drop 1)⟩)

/-- Modelled from the spec (section 4.6): serialization of the pair
list, joined with ampersands using the form-urlencoded encode set. -/
def paramsToString (ps : List (String × String)) : String :=
  ⟨joinSep '&' (ps.map fun p => formEncode p.1.data ++ '=' :: formEncode p.2.data)⟩

/-- Modelled from the spec (section 4.6): set removes every entry with
the key and leaves one entry at the first prior occurrence's position,
or appends at the end when the key was absent. -/
def setParam (ps : List (String × String)) (k v : String) :
    List (String × String) :=
  match ps with
  | [] => [(k, v)]
  | p :: rest =>
    if p.1 = k then (k, v) :: rest.filter (fun q => q.1 != k)
    else p :: setParam rest k v

namespace UrlSearchParams

/-- Embeds UrlSearchParams::parse of src/src/url_search_params.rs: the
engine constructor is called and the result is unconditionally wrapped
in Ok. -/
def parse (input : String) : Except (ParseUrlError String) (List (String × String)) :=
  Except.ok (parsePairs input.data)

/-- Embeds UrlSearchParams::set of src/src/url_search_params.rs
(state-passing form of the mutating engine call). -/
def set (ps : List (String × String)) (key value : String) :
    List (String × String) :=
  setParam ps key value

end UrlSearchParams

/-! ## IDNA

Modelled from the spec (section 6): to_unicode never fails and maps
invalid input to a best-effort passthrough per UTS number 46.  The
punycode decoder below implements the RFC 3492 decoding algorithm; a
label that fails to decode is kept verbatim. -/

def punyDigit (c : Char) : Option Nat :=
  if 'a' ≤ c ∧ c ≤ 'z' then some (c.toNat - 97)
  else if 'A' ≤ c ∧ c ≤ 'Z' then some (c.toNat - 65)
  else if '0' ≤ c ∧ c ≤ '9' then some (c.toNat - 22)
  else none

def adaptLoop (delta k : Nat) : Nat :=
  if _h : 455 < delta then adaptLoop (delta / 35) (k + 36)
  else k + 36 * delta / (delta + 38)
  decreasing_by exact Nat.div_lt_self (by omega) (by omega)

def adapt (delta numpoints : Nat) (first : Bool) : Nat :=
  let d := if first then delta / 700 else delta / 2
  adaptLoop (d + d / numpoints) 0

/-- Decode one generalized variable-length integer; returns the new
accumulated index and the unconsumed input. -/
def decodeVLI : List Char → Nat → Nat → Nat → Nat → Option (Nat × List Char)
  | [], _, _, _, _ => none
  | c :: rest, i, w, k, bias =>
    match punyDigit c with
    | none => none
    | some d =>
      let i2 := i + d * w
      let t := if k ≤ bias then 1 else if bias + 26 ≤ k then 26 else k - bias
      if d < t then some (i2, rest)
      else decodeVLI rest i2 (w * (36 - t)) (k + 36) bias

def isValidCp (n : Nat) : Prop :=
  n < 55296 ∨ (57344 ≤ n ∧ n < 1114112)

instance (n : Nat) : Decidable (isValidCp n) := by
  unfold isValidCp; infer_instance

/-- Main punycode decoding loop over the extended part of a label. -/
def decodeAll (fuel : Nat) (input : List Char) (n i bias : Nat) (first : Bool)
    (out : List Nat) : Option (List Nat) :=
  match fuel, input with
  | _, [] => some out
  | 0, _ :: _ => none
  | fuel + 1, c :: rest0 =>
    match decodeVLI (c :: rest0) i 1 36 bias with
    | none => none
    | some x =>
      let len1 := out.length + 1
      let bias2 := adapt (x.1 - i) len1 first
      let n2 := n + x.1 / len1
      let i2 := x.1 % len1
      if isValidCp n2 then
        decodeAll fuel x.2 n2 (i2 + 1) bias2 false (insertAt i2 n2 out)
      else none

/-- RFC 3492 decode of one label body (the text after the xn prefix);
none when the label is not valid punycode. -/
def punyDecode (l : List Char) : Option (List Char) :=
  match splitLastSep '-' l with
  | some x =>
    if x.1.all (fun c => c.toNat < 128) then
      (decodeAll x.2.length x.2 128 0 72 true (x.1.map Char.toNat)).map
        (fun out => out.map Char.ofNat)
    else none
  | none =>
    (decodeAll l.length l 128 0 72 true []).map (fun out => out.map Char.ofNat)

/-- One label of to_unicode: an ACE label (xn prefix) is punycode
decoded, with verbatim passthrough on failure; other labels pass
through. -/
def processLabel (l : List Char) : List Char :=
  if l.take 4 = ['x', 'n', '-', '-'] then
    match punyDecode (l.drop 4) with
    | some u => u
    | none => l
  else l

/-- Modelled from the spec: the engine function behind
ada_idna_to_unicode, per-label best-effort conversion. -/
def ada_idna_to_unicode (input : String) : String :=
  ⟨joinSep '.' ((splitSep '.' input.data).map processLabel)⟩

namespace Idna

/-- Embeds Idna::unicode of src/src/idna.rs: the engine call followed
by to_string. -/
def unicode (input : String) : String :=
  ada_idna_to_unicode input

end Idna

/-! ## Auxiliary facts for the claim theorems -/

theorem filter_beq_of_filter_bne (k : String) (l : List (String × String)) :
    (l.filter (fun q => q.1 != k)).filter (fun q => q.1 == k) = [] := by
  induction l with
  | nil => rfl
  | cons p rest ih =>
    by_cases hp : p.1 = k
    · simp [hp, ih]
    · simp only [List.filter_cons]
      rw [if_pos (by simp [hp])]
      simp only [List.filter_cons]
      rw [if_neg (by simp [hp])]
      exact ih

/-- A concrete parsed record used by the witnesses below. -/
def sampleUrl : UrlRec :=
  ⟨['h', 't', 't', 'p'], [], [], ['h'], none, ['/'], none, none⟩

/-! ## The claims -/

/-- Claim C1: setter atomicity — for every record and every input on
which one of the eight fallible setters (set_href, set_protocol,
set_username, set_password, set_host, set_hostname, set_port,
set_pathname) fails, the setter returns the failure result and the
record, hence its href, is unchanged. -/
theorem setter_atomicity (r : UrlRec) (c : SetterCall)
    (h : (applySetter r c).1 = Except.error ()) :
    (applySetter r c).2 = r ∧ Url.href (applySetter r c).2 = Url.href r := by
  have key : (applySetter r c).2 = r := by
    cases c with
    | href s =>
      simp only [applySetter, Url.set_href] at h ⊢
      exact commitSetter_fail _ r (setter_result_error _ h)
    | protocol s =>
      simp only [applySetter, Url.set_protocol] at h ⊢
      exact commitSetter_fail _ r (setter_result_error _ h)
    | username s =>
      simp only [applySetter, Url.set_username] at h ⊢
      exact commitSetter_fail _ r (setter_result_error _ h)
    | password s =>
      simp only [applySetter, Url.set_password] at h ⊢
      exact commitSetter_fail _ r (setter_result_error _ h)
    | host s =>
      simp only [applySetter, Url.set_host] at h ⊢
      exact commitSetter_fail _ r (setter_result_error _ h)
    | hostname s =>
      simp only [applySetter, Url.set_hostname] at h ⊢
      exact commitSetter_fail _ r (setter_result_error _ h)
    | port s =>
      cases s with
      | none => simp [applySetter, Url.set_port, setter_result] at h
      | some v =>
        simp only [applySetter, Url.set_port] at h ⊢
        exact commitSetter_fail _ r (setter_result_error _ h)
    | pathname s =>
      simp only [applySetter, Url.set_pathname] at h ⊢
      exact commitSetter_fail _ r (setter_result_error _ h)
  exact ⟨key, by rw [key]⟩

/-- Witness for C1: a concrete failing set_port call leaves the record
intact. -/
theorem setter_atomicity_witness :
    (applySetter sampleUrl (SetterCall.port (some "abc"))).1 = Except.error () ∧
    (applySetter sampleUrl (SetterCall.port (some "abc"))).2 = sampleUrl :=
  ⟨rfl, (setter_atomicity sampleUrl (SetterCall.port (some "abc")) rfl).1⟩

/-- Claim C2: for every input and optional base, can_parse returns true
exactly when parse returns Ok. -/
theorem can_parse_iff_parse_ok (input : String) (base : Option String) :
    Url.can_parse input base = true ↔ ∃ r, Url.parse input base = Except.ok r := by
  cases base with
  | none =>
    simp only [Url.can_parse, ada_can_parse, Url.parse]
    cases ada_parse input <;> simp
  | some b =>
    simp only [Url.can_parse, ada_can_parse_with_base, Url.parse]
    cases ada_parse_with_base input b <;> simp

/-- Claim C3: serialization round trip — when parse succeeds, re-parsing
the serialized href succeeds and serializes to the same string. -/
theorem parse_href_round_trip (s : String) (r : UrlRec)
    (h : Url.parse s none = Except.ok r) :
    ∃ r2, Url.parse (Url.href r) none = Except.ok r2 ∧ Url.href r2 = Url.href r := by
  have hp := parse_none_ok s r h
  have hwf := parse_wf s.data r hp
  have hrt : parseList (Url.href r).data = some r := serialize_parse r hwf
  refine ⟨r, ?_, rfl⟩
  unfold Url.parse
  simp [ada_parse, hrt]

/-- Witness for C3 at a concretely parsed URL. -/
theorem parse_href_round_trip_witness :
    ∃ r2, Url.parse (Url.href sampleUrl) none = Except.ok r2 ∧
      Url.href r2 = Url.href sampleUrl :=
  parse_href_round_trip "http://h/" sampleUrl rfl

/-- Claim C4: to_unicode is total (it returns a String, with no error
channel) and an input all of whose ACE labels fail to decode is passed
through verbatim, best-effort per UTS number 46. -/
theorem idna_unicode_total_passthrough (s : String)
    (h : ∀ l ∈ splitSep '.' s.data,
      l.take 4 = ['x', 'n', '-', '-'] → punyDecode (l.drop 4) = none) :
    Idna.unicode s = s := by
  obtain ⟨d⟩ := s
  unfold Idna.unicode ada_idna_to_unicode
  have hmap : (splitSep '.' (String.mk d).data).map processLabel
      = splitSep '.' (String.mk d).data := by
    have hall : ∀ l ∈ splitSep '.' (String.mk d).data, processLabel l = l := by
      intro l hl
      unfold processLabel
      by_cases hx : l.take 4 = ['x', 'n', '-', '-']
      · simp [hx, h l hl hx]
      · rw [if_neg hx]
    calc (splitSep '.' (String.mk d).data).map processLabel
        = (splitSep '.' (String.mk d).data).map id := List.map_congr_left hall
      _ = splitSep '.' (String.mk d).data := List.map_id _
  rw [hmap, joinSep_splitSep]

/-- Witness for C4: a fully invalid ACE input maps to itself. -/
theorem idna_unicode_total_passthrough_witness :
    Idna.unicode "xn--%" = "xn--%" :=
  idna_unicode_total_passthrough "xn--%" (by decide)

/-- Claim C5: set_port rejects non-numeric or out-of-range input with a
failure and an unchanged record; an absent or empty input succeeds and
clears the port, after which port() is empty and has_port is false. -/
theorem set_port_spec (r : UrlRec) (s : String) :
    ((s.data ≠ [] ∧ (s.data.all Char.isDigit = false ∨ 65535 < charsToNat s.data)) →
      (Url.set_port r (some s)).1 = Except.error () ∧
      (Url.set_port r (some s)).2 = r) ∧
    ((Url.set_port r none).1 = Except.ok () ∧
      ((Url.set_port r none).2).port = none ∧
      Url.port ((Url.set_port r none).2) = "" ∧
      Url.has_port ((Url.set_port r none).2) = false) ∧
    ((Url.set_port r (some "")).1 = Except.ok () ∧
      ((Url.set_port r (some "")).2).port = none ∧
      Url.port ((Url.set_port r (some "")).2) = "" ∧
      Url.has_port ((Url.set_port r (some "")).2) = false) := by
  refine ⟨?_, ⟨rfl, rfl, rfl, rfl⟩, ⟨rfl, rfl, rfl, rfl⟩⟩
  rintro ⟨h1, h2⟩
  have hnone : trySetPort r s.data = none := by
    unfold trySetPort
    rw [if_neg h1]
    by_cases hall : s.data.all Char.isDigit = true
    · rcases h2 with h2 | h2
      · rw [hall] at h2; exact absurd h2 (by simp)
      · rw [if_pos hall, if_neg (by omega)]
    · rw [if_neg hall]
  constructor
  · show setter_result (ada_set_port r s.data).1 = Except.error ()
    unfold ada_set_port
    rw [hnone]
    rfl
  · show (ada_set_port r s.data).2 = r
    unfold ada_set_port
    rw [hnone]
    rfl

/-- Witness for C5: a concrete out-of-range port is rejected. -/
theorem set_port_spec_witness :
    (Url.set_port sampleUrl (some "99999")).1 = Except.error () ∧
    (Url.set_port sampleUrl (some "99999")).2 = sampleUrl :=
  (set_port_spec sampleUrl "99999").1 ⟨by decide, Or.inr (by decide)⟩

/-- Claim C6: set removes every entry with the key and leaves exactly
one entry with the new value, at the first prior occurrence's position
or appended at the end, and the concrete example serializes as the
spec states. -/
theorem search_params_set_spec (ps : List (String × String)) (k v : String) :
    (setParam ps k v).filter (fun q => q.1 == k) = [(k, v)] ∧
    (ps.all (fun q => q.1 != k) = true → setParam ps k v = ps ++ [(k, v)]) ∧
    (∀ l1 x l2, ps = l1 ++ (k, x) :: l2 → l1.all (fun q => q.1 != k) = true →
      setParam ps k v = l1 ++ (k, v) :: l2.filter (fun q => q.1 != k)) ∧
    paramsToString (UrlSearchParams.set (parsePairs (String.data "a=1&b=2")) "a" "3")
      = "a=3&b=2" := by
  refine ⟨?_, ?_, ?_, by decide⟩
  · induction ps with
    | nil => simp [setParam]
    | cons p rest ih =>
      by_cases hp : p.1 = k
      · simp only [setParam, if_pos hp, List.filter_cons]
        rw [if_pos (by simp)]
        rw [filter_beq_of_filter_bne k rest]
      · simp only [setParam, if_neg hp, List.filter_cons]
        rw [if_neg (by simp [hp])]
        exact ih
  · induction ps with
    | nil => intro _; rfl
    | cons p rest ih =>
      intro hall
      simp only [List.all_cons, Bool.and_eq_true] at hall
      have hp : ¬ p.1 = k := by
        have := hall.1
        simpa using this
      simp only [setParam, if_neg hp, List.cons_append, List.cons.injEq, true_and]
      exact ih hall.2
  · intro l1 x l2 hps hall
    subst hps
    induction l1 with
    | nil =>
      simp [setParam]
    | cons p l1t ih =>
      simp only [List.all_cons, Bool.and_eq_true] at hall
      have hp : ¬ p.1 = k := by
        have := hall.1
        simpa using this
      simp only [List.cons_append, setParam, if_neg hp, List.cons.injEq, true_and]
      exact ih hall.2

/-- Witness for C6: set appends when the key is absent. -/
theorem search_params_set_spec_witness :
    setParam [Prod.mk "x" "1"] "a" "2"
      = [Prod.mk "x" "1"] ++ [Prod.mk "a" "2"] :=
  (search_params_set_spec [Prod.mk "x" "1"] "a" "2").2.1 (by decide)

/-- Claim C7: offset consistency — for every parsed record, the href
slice up to protocol_end ends with a colon, host_start is at most
host_end, and host_end is at most pathname_start (or the href length
when the path is absent). -/
theorem components_offset_consistency (s : String) (r : UrlRec)
    (_h : ada_parse s = some r) :
    (((Url.href r).data.take (Url.components r).protocol_end).getLast? = some ':') ∧
    (Url.components r).host_start ≤ (Url.components r).host_end ∧
    (match (Url.components r).pathname_start with
     | some p => (Url.components r).host_end ≤ p
     | none => (Url.components r).host_end ≤ (Url.href r).data.length) := by
  refine ⟨?_, ?_, ?_⟩
  · show ((serializeList r).take (r.scheme.length + 1)).getLast? = some ':'
    unfold serializeList
    rw [take_length_append_cons, getLast?_append_singleton]
  · show (Url.components r).host_start ≤ (Url.components r).host_start + r.host.length
    exact Nat.le_add_right _ _
  · show (Url.components r).host_end ≤ (Url.components r).host_end + (portPart r.port).length
    exact Nat.le_add_right _ _

/-- Witness for C7 at a concretely parsed URL. -/
theorem components_offset_consistency_witness :
    (((Url.href sampleUrl).data.take (Url.components sampleUrl).protocol_end).getLast?
        = some ':') ∧
    (Url.components sampleUrl).host_start ≤ (Url.components sampleUrl).host_end ∧
    (match (Url.components sampleUrl).pathname_start with
     | some p => (Url.components sampleUrl).host_end ≤ p
     | none => (Url.components sampleUrl).host_end ≤ (Url.href sampleUrl).data.length) :=
  components_offset_consistency "http://h/" sampleUrl rfl

/-- Claim C8: sentinel decoding — the conversion from the raw component
record maps each optional offset to none exactly when the raw value is
the u32 maximum, to some of the raw value otherwise, and passes the
four mandatory offsets through unchanged. -/
theorem components_sentinel_decoding (v : ada_url_components) :
    ((UrlComponents.ofRaw v).port = none ↔ v.port = u32MAX) ∧
    (∀ x, (UrlComponents.ofRaw v).port = some x ↔ v.port = x ∧ x ≠ u32MAX) ∧
    ((UrlComponents.ofRaw v).pathname_start = none ↔ v.pathname_start = u32MAX) ∧
    (∀ x, (UrlComponents.ofRaw v).pathname_start = some x ↔
      v.pathname_start = x ∧ x ≠ u32MAX) ∧
    ((UrlComponents.ofRaw v).search_start = none ↔ v.search_start = u32MAX) ∧
    (∀ x, (UrlComponents.ofRaw v).search_start = some x ↔
      v.search_start = x ∧ x ≠ u32MAX) ∧
    ((UrlComponents.ofRaw v).hash_start = none ↔ v.hash_start = u32MAX) ∧
    (∀ x, (UrlComponents.ofRaw v).hash_start = some x ↔
      v.hash_start = x ∧ x ≠ u32MAX) ∧
    (UrlComponents.ofRaw v).protocol_end = v.protocol_end ∧
    (UrlComponents.ofRaw v).username_end = v.username_end ∧
    (UrlComponents.ofRaw v).host_start = v.host_start ∧
    (UrlComponents.ofRaw v).host_end = v.host_end := by
  unfold UrlComponents.ofRaw
  by_cases h1 : v.port = u32MAX <;> by_cases h2 : v.pathname_start = u32MAX <;>
    by_cases h3 : v.search_start = u32MAX <;> by_cases h4 : v.hash_start = u32MAX <;>
    simp [h1, h2, h3, h4]

/-- Claim C9: equality, ordering and hashing are determined by the
serialized href — two URLs are equal exactly when their hrefs are,
cmp compares the hrefs, and equal hrefs hash identically. -/
theorem url_eq_ord_hash_by_href (a b : UrlRec) :
    (Url.beq a b = true ↔ Url.href a = Url.href b) ∧
    Url.cmp a b = compare (Url.href a) (Url.href b) ∧
    (∀ hasher : String → Nat, Url.href a = Url.href b →
      Url.hashWith hasher a = Url.hashWith hasher b) := by
  refine ⟨?_, rfl, ?_⟩
  · simp [Url.beq]
  · intro hasher h
    simp [Url.hashWith, h]

/-- Witness for C9: equal hrefs give equal hash values at a concrete
hasher and record. -/
theorem url_eq_ord_hash_by_href_witness :
    Url.hashWith String.length sampleUrl = Url.hashWith String.length sampleUrl :=
  (url_eq_ord_hash_by_href sampleUrl sampleUrl).2.2 String.length rfl

/-- Claim C10: UrlSearchParams::parse is infallible — it returns Ok on
every input string. -/
theorem search_params_parse_infallible (s : String) :
    ∃ p, UrlSearchParams.parse s = Except.ok p :=
  ⟨parsePairs s.data, rfl⟩

end AdaUrl
